import Mathlib

/-!
Verification of the doxygen-comment lexer and parser (src/lexer.rs, src/parser.rs).

Text is modelled as `List Char`.  The Rust lexer stores borrowed slices of the
input and extends the previous token's view when merging contiguous characters
of the same class; since a merge can only happen when the merged character is
adjacent to the previous token's span, extending a view is modelled here as
appending the character to the token's stored character list.
-/

/-- Lexical token, mirroring `enum LexItem` in src/lexer.rs.  `At` covers both
the introducer character and escape runs; each text-bearing variant stores the
literal text of the token. -/
inductive LexItem where
  | At : List Char → LexItem
  | Paren : Char → LexItem
  | Word : List Char → LexItem
  | Whitespace : List Char → LexItem
  | NewLine : LexItem
deriving DecidableEq, Repr

/-- Mirrors `LexItem::push_to` in src/lexer.rs: appends the token's literal
text to an accumulator string (a `NewLine` renders as one newline). -/
def LexItem.push_to (t : LexItem) (acc : List Char) : List Char :=
  match t with
  | .At w => acc ++ w
  | .Paren c => acc ++ [c]
  | .Word w => acc ++ w
  | .Whitespace w => acc ++ w
  | .NewLine => acc ++ ['\n']

/-- One step of the lexer loop body of `lex` in src/lexer.rs.  The accumulator
holds the emitted tokens in reverse order, so the head of the list is the
`result.last_mut()` of the Rust code.  Extending the previous token's slice
view is modelled as appending the current character to its text (the merge
arms only fire when the character is adjacent to that token's span). -/
def lexStep (acc : List LexItem) (c : Char) : List LexItem :=
  if c = '@' then .At [c] :: acc
  else if c = '\\' then
    match acc with
    | .At v :: r => if v = ['\\'] then .At (v ++ [c]) :: r else .At [c] :: .At v :: r
    | _ => .At [c] :: acc
  else if c = '\x7b' ∨ c = '\x7d' then .Paren c :: acc
  else if c = ' ' ∨ c = '\t' then
    match acc with
    | .Whitespace v :: r => .Whitespace (v ++ [c]) :: r
    | _ => .Whitespace [c] :: acc
  else if c = '\n' then .NewLine :: acc
  else
    match acc with
    | .Word v :: r => .Word (v ++ [c]) :: r
    | _ => .Word [c] :: acc

/-- Mirrors `lex` in src/lexer.rs: a single forward scan over the input. -/
def lex (input : List Char) : List LexItem :=
  (input.foldl lexStep []).reverse

/-- Concatenation of the literal text of a token sequence, in order, using
`LexItem.push_to` for each token. -/
def lex_concat (ts : List LexItem) : List Char :=
  ts.foldl (fun acc t => t.push_to acc) []

/-- Mirrors `enum ParseError` in src/parser.rs. -/
inductive ParseError where
  | UnexpectedEndOfInput : ParseError
  | UnexpectedInput : List Char → List (List Char) → ParseError
deriving DecidableEq, Repr

/-- Grammar item, mirroring `enum GrammarItem` in src/parser.rs.  The
`Notation` variant of the source is called `nota` here; it carries `meta`,
`params` and `tag` in this order. -/
inductive GrammarItem where
  | nota : List (List Char) → List (List Char) → List Char → GrammarItem
  | Text : List Char → GrammarItem
  | GroupStart : GrammarItem
  | GroupEnd : GrammarItem
deriving DecidableEq, Repr

/-- Mirrors `enum ParamParser` in src/parser.rs: the three argument-extraction
strategies. -/
inductive ParamParser where
  | None : ParamParser
  | Whitespace : ParamParser
  | Paren : ParamParser
deriving DecidableEq, Repr

/-- Mirrors Rust's `str::split_once` on a single character: splits at the
first occurrence of `c`, returning the parts before and after it. -/
def splitOnce (c : Char) : List Char → Option (List Char × List Char)
  | [] => none
  | x :: xs =>
    if x = c then some ([], xs)
    else (splitOnce c xs).map (fun p => (x :: p.1, p.2))

/-- The direction-annotation analysis of the `param` branch of `parse_items`
(src/parser.rs lines 94-108): given the result of splitting the keyword at the
first bracket, produce the `meta` entries or the malformed-annotation error. -/
def direction_meta : Option (List Char × List Char) → Except ParseError (List (List Char))
  | some (_, s) =>
    if s = "in]".data then .ok ["in".data]
    else if s = "out]".data then .ok ["out".data]
    else if s = "in,out]".data ∨ s = "out,in]".data then .ok ["in".data, "out".data]
    else .error (.UnexpectedInput s ["in]".data, "out]".data])
  | none => .ok []

/-- The fixed keyword set using the whitespace argument strategy
(src/parser.rs lines 115-118). -/
def wsKeywords : List (List Char) :=
  ["a", "b", "c", "p", "emoji", "e", "em", "def", "class", "category",
   "concept", "enum", "example", "extends", "file", "sa", "see", "retval",
   "exception", "throw", "throws"].map String.data

/-- The tag / meta / strategy computation for a marker followed by a word
(src/parser.rs lines 93-122). -/
def word_nota (v : List Char) :
    Except ParseError (List (List Char) × List Char × ParamParser) :=
  if "param".data.isPrefixOf v then
    match direction_meta (splitOnce '[' v) with
    | .error e => .error e
    | .ok meta => .ok (meta, "param".data, .Whitespace)
  else
    .ok ([], v,
      if v ∈ wsKeywords then .Whitespace
      else if v = "code".data then .Paren
      else .None)

/-- The search of the whitespace strategy (src/parser.rs lines 126-134):
starting at enumeration index `i`, skip `Whitespace` tokens and return the
first non-whitespace token together with its index when it is a `Word`. -/
def find_param : List LexItem → Nat → Option (Nat × List Char)
  | [], _ => none
  | .Whitespace _ :: rest, i => find_param rest (i + 1)
  | .Word w :: _, i => some (i, w)
  | _ :: _, _ => none

/-- Whitespace strategy on the Rust `rest` slice (current token at index 0,
keyword at index 1): `iter().enumerate().skip(2).find(..)`. -/
def ws_param (ts : List LexItem) : Option (Nat × List Char) :=
  find_param (ts.drop 2) 2

/-- Paren strategy (src/parser.rs lines 135-140) on the Rust `rest` slice:
the argument must appear as `[_, _, open-delimiter, Word, close-delimiter]`. -/
def paren_param : List LexItem → Option (Nat × List Char)
  | _ :: _ :: .Paren c1 :: .Word w :: .Paren c2 :: _ =>
    if c1 = '\x7b' ∧ c2 = '\x7d' then some (4, w) else none
  | _ => none

/-- Condition of src/parser.rs lines 52-53: the current token together with
its one-token lookahead begins an end-of-code marker. -/
def ends_code_tok (cur : LexItem) (next : Option LexItem) : Bool :=
  (match cur with | .At _ => true | _ => false) &&
  (match next with | some (.Word v) => v = "endcode".data | _ => false)

/-- Verbatim-code-mode detection (src/parser.rs lines 55-70): the accumulator
(reversed grammar items, head = most recent) ends in a code Notation, or in a
code Notation followed by a Text item. -/
def in_code : List GrammarItem → Bool
  | .nota _ _ tag :: _ => tag = "code".data
  | .Text _ :: .nota _ _ tag :: _ => tag = "code".data
  | _ => false

/-- Verbatim passthrough action (src/parser.rs lines 55-68): append the
current token's literal text to the open Text item after the code Notation,
creating the Text item when it does not exist yet. -/
def code_append (cur : LexItem) (acc : List GrammarItem) : List GrammarItem :=
  match acc with
  | .Text t :: r => .Text (cur.push_to t) :: r
  | _ => .Text (cur.push_to []) :: acc

/-- One iteration of the `parse_items` loop (src/parser.rs lines 42-184) on a
non-skipped token.  `rest` holds the tokens after `cur`; `acc` holds the
grammar items emitted so far in reverse order (head = `last_mut()`).  On
success it returns the number of upcoming tokens to skip and the new
accumulator. -/
def parse_step (cur : LexItem) (rest : List LexItem) (acc : List GrammarItem) :
    Except ParseError (Nat × List GrammarItem) :=
  if !ends_code_tok cur rest.head? && in_code acc then
    .ok (0, code_append cur acc)
  else
    match cur with
    | .At _ =>
      match rest.head? with
      | some (.Paren c) =>
        if c = '\x7b' then .ok (0, .GroupStart :: acc)
        else if c = '\x7d' then .ok (0, .GroupEnd :: acc)
        else .error (.UnexpectedInput [c] ["\x7b".data, "\x7d".data])
      | some (.Word v) =>
        match word_nota v with
        | .error e => .error e
        | .ok (meta, tag, strat) =>
          let param :=
            match strat with
            | .None => none
            | .Whitespace => ws_param (cur :: rest)
            | .Paren => paren_param (cur :: rest)
          let sp :=
            match param with
            | some (k, w) => (k, [w])
            | none => (1, ([] : List (List Char)))
          let acc' := GrammarItem.nota meta sp.2 tag :: acc
          .ok (sp.1, if tag = "endcode".data then .Text [] :: acc' else acc')
      | _ => .ok (0, acc)
    | .Word v =>
      match acc with
      | .Text t :: r => .ok (0, .Text (t ++ v) :: r)
      | _ => .ok (0, .Text v :: acc)
    | .Whitespace _ =>
      match acc with
      | .Text t :: r => .ok (0, .Text (t ++ [' ']) :: r)
      | .nota _ p _ :: _ =>
        if p ≠ [] then .ok (0, .Text [' '] :: acc) else .ok (0, .Text [] :: acc)
      | [] => .ok (0, .Text [' '] :: acc)
      | _ => .ok (0, .Text [] :: acc)
    | .NewLine =>
      match acc with
      | .Text t :: r => .ok (0, .Text (t ++ ['\n']) :: r)
      | _ => .ok (0, acc)
    | .Paren c =>
      match acc with
      | .Text t :: r => .ok (0, .Text (t ++ [c]) :: r)
      | _ => .ok (0, acc)

/-- The scan loop of `parse_items` (src/parser.rs lines 42-184).  The `skip`
argument is `param_iter_skip_count`: while positive the current token is
consumed without processing. -/
def parse_items_go : List LexItem → Nat → List GrammarItem →
    Except ParseError (List GrammarItem)
  | [], _, acc => .ok acc.reverse
  | cur :: rest, skip, acc =>
    if skip > 0 then parse_items_go rest (skip - 1) acc
    else
      match parse_step cur rest acc with
      | .error e => .error e
      | .ok (k, acc') => parse_items_go rest k acc'

/-- Mirrors `parse_items` in src/parser.rs. -/
def parse_items (ts : List LexItem) : Except ParseError (List GrammarItem) :=
  parse_items_go ts 0 []

/-- Mirrors `parse` in src/parser.rs: lex then parse the token stream. -/
def parse (input : List Char) : Except ParseError (List GrammarItem) :=
  parse_items (lex input)

/-! ## Auxiliary predicates used in the statements and proofs -/

/-- Accumulator heads that the escape branch of `lexStep` will not merge into:
the most recent token is not a single-character escape Marker. -/
def noHalfEsc : List LexItem → Prop
  | .At v :: _ => v ≠ ['\\']
  | _ => True

/-- Token-level property: a delimiter token holds a brace character. -/
def braced_tok : LexItem → Bool
  | .Paren c => c = '\x7b' || c = '\x7d'
  | _ => true

/-- Word-level condition ruling out the malformed-direction-annotation error:
either the word does not start with the param keyword, or its bracket suffix
(after the first opening bracket, when present) is one of the four accepted
direction bodies. -/
def wordOk (w : List Char) : Bool :=
  !("param".data.isPrefixOf w) ||
    (match splitOnce '[' w with
     | none => true
     | some (_, s) =>
       s = "in]".data || s = "out]".data || s = "in,out]".data || s = "out,in]".data)

/-- Token-level version of `wordOk`: word tokens satisfy `wordOk`. -/
def word_ok_tok : LexItem → Bool
  | .Word w => wordOk w
  | _ => true

/-- Input-level condition: every word token produced by the lexer is benign.
This characterizes the inputs on which `parse` cannot fail. -/
def good_input (s : List Char) : Bool :=
  (lex s).all word_ok_tok

/-- Accumulator heads that the whitespace branch of `lexStep` will not merge
into: the most recent token is not a Whitespace token. -/
def noWsHead : List LexItem → Prop
  | .Whitespace _ :: _ => False
  | _ => True

/-- Within a token run, no position starts an end-of-code marker; the second
argument is the lookahead token just after the run. -/
def no_end : List LexItem → Option LexItem → Bool
  | [], _ => true
  | [t], nxt => !ends_code_tok t nxt
  | t :: u :: r, nxt => !ends_code_tok t (some u) && no_end (u :: r) nxt

/-- Grammar item with tag "endcode". -/
def is_endcode : GrammarItem → Bool
  | .nota _ _ tag => tag = "endcode".data
  | _ => false

/-- In an item sequence (in output order), every "endcode" Notation is
immediately followed by a Text item. -/
def endcode_followed : List GrammarItem → Bool
  | [] => true
  | x :: rest =>
    (if is_endcode x then
      (match rest with | .Text _ :: _ => true | _ => false)
     else true)
    && endcode_followed rest

/-! ## Lexer lemmas -/

theorem push_to_nil (t : LexItem) (a : List Char) : t.push_to a = a ++ t.push_to [] := by
  cases t <;> simp [LexItem.push_to]

theorem lex_concat_from (m : List LexItem) :
    ∀ a : List Char, m.foldl (fun acc t => t.push_to acc) a = a ++ lex_concat m := by
  induction m with
  | nil => intro a; simp [lex_concat]
  | cons t m ih =>
    intro a
    simp only [List.foldl_cons, lex_concat]
    rw [ih (t.push_to a), ih (t.push_to []), push_to_nil t a]
    simp [List.append_assoc]

theorem lex_concat_append (l m : List LexItem) :
    lex_concat (l ++ m) = lex_concat l ++ lex_concat m := by
  unfold lex_concat
  rw [List.foldl_append]
  exact lex_concat_from m _

theorem concat_lexStep (acc : List LexItem) (c : Char) :
    lex_concat (lexStep acc c).reverse = lex_concat acc.reverse ++ [c] := by
  unfold lexStep
  repeat' split
  all_goals
    simp_all [List.reverse_cons, lex_concat_append, lex_concat, LexItem.push_to,
      List.append_assoc]

theorem lex_concat_foldl (input : List Char) :
    ∀ acc, lex_concat (input.foldl lexStep acc).reverse = lex_concat acc.reverse ++ input := by
  induction input with
  | nil => intro acc; simp
  | cons c cs ih =>
    intro acc
    simp only [List.foldl_cons]
    rw [ih (lexStep acc c), concat_lexStep]
    simp [List.append_assoc]

/-- C1: for every input string, concatenating the literal text of every token
emitted by `lex`, in emission order (a NewLine rendering as one newline
character), yields exactly the original input: the tokens partition the input
with no gaps, no overlaps, no loss, and no duplication. -/
theorem c1_lossless_tokenization (input : List Char) : lex_concat (lex input) = input := by
  have h := lex_concat_foldl input []
  simpa [lex] using h

/-! ## Escape-run behaviour of the lexer -/

theorem lexStep_bs (acc : List LexItem) (h : noHalfEsc acc) :
    lexStep acc '\\' = .At ['\\'] :: acc := by
  unfold lexStep
  rw [if_neg (by decide), if_pos rfl]
  cases acc with
  | nil => rfl
  | cons t r =>
    cases t with
    | At v =>
      simp only [noHalfEsc] at h
      simp [h]
    | Paren c => rfl
    | Word w => rfl
    | Whitespace w => rfl
    | NewLine => rfl

theorem lexStep_bs_merge (acc : List LexItem) :
    lexStep (.At ['\\'] :: acc) '\\' = .At ['\\', '\\'] :: acc := by
  rfl

theorem esc_foldl : ∀ (n : Nat) (acc : List LexItem), noHalfEsc acc →
    List.foldl lexStep acc (List.replicate n '\\') =
      ((if n % 2 = 1 then [LexItem.At ['\\']] else []) ++
        List.replicate (n / 2) (LexItem.At ['\\', '\\'])) ++ acc
  | 0, acc, _ => by simp
  | 1, acc, h => by
    simp only [List.replicate, List.foldl_cons, List.foldl_nil, lexStep_bs acc h]
    rfl
  | n + 2, acc, h => by
    have hrep : List.replicate (n + 2) '\\' = '\\' :: '\\' :: List.replicate n '\\' := by
      simp [List.replicate]
    rw [hrep]
    simp only [List.foldl_cons, lexStep_bs acc h, lexStep_bs_merge acc]
    rw [esc_foldl n (.At ['\\', '\\'] :: acc) (by simp [noHalfEsc])]
    have h1 : (n + 2) % 2 = n % 2 := by omega
    have h2 : (n + 2) / 2 = n / 2 + 1 := by omega
    rw [h1, h2, List.replicate_succ']
    simp [List.append_assoc]

/-- C6 counterexample: an input that is one maximal run of three consecutive
escape characters lexes to two Marker tokens (a two-character Marker and a
one-character Marker), not to one Marker token holding the whole run. -/
theorem c6_counterexample :
    lex ['\\', '\\', '\\'] = [.At ['\\', '\\'], .At ['\\']] ∧
      lex ['\\', '\\', '\\'] ≠ [.At ['\\', '\\', '\\']] := by
  constructor <;> decide

/-- C6 (amended): consecutive escape characters are merged pairwise, not into
one token per run: an input that is a maximal run of n escape characters lexes
to n / 2 two-character escape Markers followed by a single one-character
escape Marker when n is odd; only runs of length at most two yield a single
Marker holding the entire run. -/
theorem c6_escape_runs_pairwise (n : Nat) :
    lex (List.replicate n '\\') =
      List.replicate (n / 2) (LexItem.At ['\\', '\\']) ++
        (if n % 2 = 1 then [LexItem.At ['\\']] else []) := by
  unfold lex
  rw [esc_foldl n [] (by trivial)]
  rcases Nat.mod_two_eq_zero_or_one n with h | h <;>
    simp [h, List.reverse_append, List.reverse_replicate]

/-! ## Error characterization of the parser -/

theorem direction_meta_err (o : Option (List Char × List Char)) (e : ParseError)
    (h : direction_meta o = .error e) :
    ∃ f, e = .UnexpectedInput f ["in]".data, "out]".data] := by
  unfold direction_meta at h
  split at h
  · split_ifs at h
    injection h with h
    exact ⟨_, h.symm⟩
  · simp at h

theorem word_nota_err (v : List Char) (e : ParseError)
    (h : word_nota v = .error e) :
    ∃ f, e = .UnexpectedInput f ["in]".data, "out]".data] := by
  unfold word_nota at h
  split at h
  · split at h
    · rename_i e' heq
      injection h with h
      subst h
      exact direction_meta_err _ _ heq
    · simp at h
  · simp at h

theorem parse_step_err (cur : LexItem) (rest : List LexItem)
    (acc : List GrammarItem) (e : ParseError)
    (h : parse_step cur rest acc = .error e) :
    (∃ f, e = .UnexpectedInput f ["\x7b".data, "\x7d".data]) ∨
      (∃ f, e = .UnexpectedInput f ["in]".data, "out]".data]) := by
  unfold parse_step at h
  split at h
  · exact Except.noConfusion h
  · split at h
    · split at h
      · split_ifs at h
        injection h with h
        exact Or.inl ⟨_, h.symm⟩
      · split at h
        · rename_i e' heq
          injection h with h
          subst h
          exact Or.inr (word_nota_err _ _ heq)
        · exact Except.noConfusion h
      · exact Except.noConfusion h
    all_goals repeat' split at h
    all_goals exact Except.noConfusion h

theorem parse_items_go_err (ts : List LexItem) :
    ∀ (skip : Nat) (acc : List GrammarItem) (e : ParseError),
      parse_items_go ts skip acc = .error e →
      (∃ f, e = .UnexpectedInput f ["\x7b".data, "\x7d".data]) ∨
        (∃ f, e = .UnexpectedInput f ["in]".data, "out]".data]) := by
  induction ts with
  | nil => intro skip acc e h; simp [parse_items_go] at h
  | cons cur rest ih =>
    intro skip acc e h
    rw [parse_items_go] at h
    split at h
    · exact ih _ _ _ h
    · split at h
      · rename_i e' heq
        injection h with h
        subst h
        exact parse_step_err _ _ _ _ heq
      · exact ih _ _ _ h

/-! ## The lexer emits only brace delimiters -/

theorem head?_mem {α : Type _} {l : List α} {x : α} (h : l.head? = some x) : x ∈ l := by
  cases l with
  | nil => simp at h
  | cons a l =>
    simp only [List.head?_cons, Option.some.injEq] at h
    simp [h]

theorem lexStep_braced (acc : List LexItem) (c : Char)
    (h : ∀ t ∈ acc, braced_tok t = true) : ∀ t ∈ lexStep acc c, braced_tok t = true := by
  unfold lexStep
  repeat' split
  all_goals intro t ht
  all_goals rcases List.mem_cons.mp ht with rfl | ht'
  all_goals first
    | rfl
    | exact h t ht'
    | exact h t (List.mem_cons_of_mem _ ht')
    | simp_all [braced_tok]

theorem foldl_braced (s : List Char) : ∀ acc, (∀ t ∈ acc, braced_tok t = true) →
    ∀ t ∈ s.foldl lexStep acc, braced_tok t = true := by
  induction s with
  | nil => intro acc h; simpa using h
  | cons c cs ih =>
    intro acc h
    simp only [List.foldl_cons]
    exact ih _ (lexStep_braced acc c h)

theorem lex_braced (input : List Char) : ∀ t ∈ lex input, braced_tok t = true := by
  intro t ht
  exact foldl_braced input [] (by simp) t (List.mem_reverse.mp ht)

theorem parse_step_err_braced (cur : LexItem) (rest : List LexItem)
    (acc : List GrammarItem) (e : ParseError)
    (hbr : ∀ t ∈ rest, braced_tok t = true)
    (h : parse_step cur rest acc = .error e) :
    ∃ f, e = .UnexpectedInput f ["in]".data, "out]".data] := by
  rcases parse_step_err cur rest acc e h with ⟨f, hf⟩ | good
  · exfalso
    unfold parse_step at h
    split at h
    · exact Except.noConfusion h
    · split at h
      · split at h
        · rename_i c heq
          have hc := hbr _ (head?_mem heq)
          simp only [braced_tok] at hc
          split_ifs at h with h1 h2
          · rcases Bool.or_eq_true_iff.mp hc with hcc | hcc
            · exact h1 (by simpa using hcc)
            · exact h2 (by simpa using hcc)
        · split at h
          · rename_i e' heq
            injection h with h
            subst h
            rcases word_nota_err _ _ heq with ⟨g, hg⟩
            simp [hg] at hf
          · exact Except.noConfusion h
        · exact Except.noConfusion h
      all_goals repeat' split at h
      all_goals exact Except.noConfusion h
  · exact good

theorem parse_items_go_err_braced (ts : List LexItem) :
    ∀ (skip : Nat) (acc : List GrammarItem) (e : ParseError),
      (∀ t ∈ ts, braced_tok t = true) →
      parse_items_go ts skip acc = .error e →
      ∃ f, e = .UnexpectedInput f ["in]".data, "out]".data] := by
  induction ts with
  | nil => intro skip acc e _ h; simp [parse_items_go] at h
  | cons cur rest ih =>
    intro skip acc e hbr h
    have hbr' : ∀ t ∈ rest, braced_tok t = true :=
      fun t ht => hbr t (List.mem_cons_of_mem _ ht)
    rw [parse_items_go] at h
    split at h
    · exact ih _ _ _ hbr' h
    · split at h
      · rename_i e' heq
        injection h with h
        subst h
        exact parse_step_err_braced _ _ _ _ hbr' heq
      · exact ih _ _ _ hbr' h

/-! ## Totality away from malformed direction annotations -/

theorem direction_meta_ok (v : List Char)
    (hv : (match splitOnce '[' v with
           | none => true
           | some (_, s) =>
             s = "in]".data || s = "out]".data ||
               s = "in,out]".data || s = "out,in]".data) = true) :
    ∃ m, direction_meta (splitOnce '[' v) = .ok m := by
  cases hsp : splitOnce '[' v with
  | none => exact ⟨_, rfl⟩
  | some p =>
    obtain ⟨a, s⟩ := p
    rw [hsp] at hv
    simp only at hv
    unfold direction_meta
    dsimp only
    split_ifs with h1 h2 h3
    · exact ⟨_, rfl⟩
    · exact ⟨_, rfl⟩
    · exact ⟨_, rfl⟩
    · exfalso
      rcases Bool.or_eq_true_iff.mp hv with hv | hv
      rcases Bool.or_eq_true_iff.mp hv with hv | hv
      rcases Bool.or_eq_true_iff.mp hv with hv | hv
      · exact h1 (by simpa using hv)
      · exact h2 (by simpa using hv)
      · exact h3 (Or.inl (by simpa using hv))
      · exact h3 (Or.inr (by simpa using hv))

theorem word_nota_ok (v : List Char) (hv : wordOk v = true) :
    ∃ r, word_nota v = .ok r := by
  unfold word_nota
  split
  · rename_i hpre
    have hv' := hv
    unfold wordOk at hv'
    rw [hpre] at hv'
    simp only [Bool.not_true, Bool.false_or] at hv'
    obtain ⟨m, hm⟩ := direction_meta_ok v hv'
    rw [hm]
    exact ⟨_, rfl⟩
  · exact ⟨_, rfl⟩

theorem parse_step_ok (cur : LexItem) (rest : List LexItem)
    (acc : List GrammarItem)
    (hbr : ∀ t ∈ rest, braced_tok t = true)
    (hok : ∀ t ∈ rest, word_ok_tok t = true) :
    ∃ p, parse_step cur rest acc = .ok p := by
  unfold parse_step
  split
  · exact ⟨_, rfl⟩
  · split
    · rename_i w
      cases rest with
      | nil => exact ⟨_, rfl⟩
      | cons t rs =>
        cases t with
        | Paren c =>
          have hc : braced_tok (.Paren c) = true := hbr _ (by simp)
          simp only [braced_tok] at hc
          rcases Bool.or_eq_true_iff.mp hc with hc | hc
          · have hcc : c = '\x7b' := by simpa using hc
            subst hcc
            exact ⟨_, rfl⟩
          · have hcc : c = '\x7d' := by simpa using hc
            subst hcc
            exact ⟨_, rfl⟩
        | Word v =>
          have hv : word_ok_tok (.Word v) = true := hok _ (by simp)
          simp only [word_ok_tok] at hv
          obtain ⟨⟨meta, tag, strat⟩, hr⟩ := word_nota_ok v hv
          dsimp only [List.head?]
          rw [hr]
          exact ⟨_, rfl⟩
        | At u => exact ⟨_, rfl⟩
        | Whitespace u => exact ⟨_, rfl⟩
        | NewLine => exact ⟨_, rfl⟩
    · split
      · exact ⟨_, rfl⟩
      · exact ⟨_, rfl⟩
    · split
      · exact ⟨_, rfl⟩
      · split_ifs <;> exact ⟨_, rfl⟩
      · exact ⟨_, rfl⟩
      · exact ⟨_, rfl⟩
    · split
      · exact ⟨_, rfl⟩
      · exact ⟨_, rfl⟩
    · split
      · exact ⟨_, rfl⟩
      · exact ⟨_, rfl⟩

theorem parse_items_go_total (ts : List LexItem) :
    ∀ (skip : Nat) (acc : List GrammarItem),
      (∀ t ∈ ts, braced_tok t = true) →
      (∀ t ∈ ts, word_ok_tok t = true) →
      ∃ r, parse_items_go ts skip acc = .ok r := by
  induction ts with
  | nil => intro skip acc _ _; exact ⟨_, rfl⟩
  | cons cur rest ih =>
    intro skip acc hbr hok
    have hbr' : ∀ t ∈ rest, braced_tok t = true :=
      fun t ht => hbr t (List.mem_cons_of_mem _ ht)
    have hok' : ∀ t ∈ rest, word_ok_tok t = true :=
      fun t ht => hok t (List.mem_cons_of_mem _ ht)
    rw [parse_items_go]
    split
    · exact ih _ _ hbr' hok'
    · obtain ⟨⟨k, acc'⟩, hp⟩ := parse_step_ok cur rest acc hbr' hok'
      rw [hp]
      exact ih _ _ hbr' hok'

/-- C3: parse returns an error only in the two specified cases — a marker
followed by a delimiter that is neither group-open nor group-close, or a
param-family keyword whose bracket body is not one of the four accepted
direction bodies — and for every other input (every input all of whose word
tokens are benign) it returns Ok with some item sequence; in particular
mismatched, unbalanced, or missing group markers and an endcode with no
matching code never cause failure, and the UnexpectedEndOfInput variant is
never returned. -/
theorem c3_error_cases :
    (∀ (input : List Char) (e : ParseError), parse input = .error e →
        (∃ f, e = .UnexpectedInput f ["\x7b".data, "\x7d".data]) ∨
          (∃ f, e = .UnexpectedInput f ["in]".data, "out]".data])) ∧
      (∀ input : List Char, good_input input = true → ∃ r, parse input = .ok r) ∧
      (∀ input : List Char, parse input ≠ .error .UnexpectedEndOfInput) := by
  refine ⟨?_, ?_, ?_⟩
  · intro input e h
    exact parse_items_go_err (lex input) 0 [] e h
  · intro input hgood
    apply parse_items_go_total
    · exact lex_braced input
    · exact fun t ht => (List.all_eq_true.mp hgood) t ht
  · intro input h
    rcases parse_items_go_err (lex input) 0 [] _ h with ⟨f, hf⟩ | ⟨f, hf⟩ <;>
      exact ParseError.noConfusion hf

theorem c3_error_cases_witness :
    ((∃ f, ParseError.UnexpectedInput "zz]".data ["in]".data, "out]".data] =
        .UnexpectedInput f ["\x7b".data, "\x7d".data]) ∨
      (∃ f, ParseError.UnexpectedInput "zz]".data ["in]".data, "out]".data] =
        .UnexpectedInput f ["in]".data, "out]".data])) ∧
      (∃ r, parse "@\x7b x".data = .ok r) ∧
      parse "abc".data ≠ .error .UnexpectedEndOfInput :=
  ⟨c3_error_cases.1 "@param[zz] x".data _ rfl,
   c3_error_cases.2.1 "@\x7b x".data rfl,
   c3_error_cases.2.2 "abc".data⟩

/-- C9: for every input string, the malformed-group-marker error branch of
parse is unreachable: the lexer only ever emits delimiter tokens for the two
brace characters, so the parser's UnexpectedInput error expecting a group
delimiter can never be returned by parse, and every error parse actually
returns is the malformed direction annotation error. -/
theorem c9_brace_error_unreachable :
    (∀ (input : List Char) (t : LexItem), t ∈ lex input →
        ∀ c, t = .Paren c → c = '\x7b' ∨ c = '\x7d') ∧
      (∀ (input : List Char) (e : ParseError), parse input = .error e →
        ∃ f, e = .UnexpectedInput f ["in]".data, "out]".data]) := by
  constructor
  · intro input t ht c hc
    subst hc
    have hb := lex_braced input _ ht
    simp only [braced_tok] at hb
    rcases Bool.or_eq_true_iff.mp hb with h | h
    · exact Or.inl (by simpa using h)
    · exact Or.inr (by simpa using h)
  · intro input e h
    exact parse_items_go_err_braced (lex input) 0 [] e (lex_braced input) h

theorem c9_brace_error_unreachable_witness :
    ('\x7b' = '\x7b' ∨ '\x7b' = '\x7d') ∧
      (∃ f, ParseError.UnexpectedInput "q]".data ["in]".data, "out]".data] =
        .UnexpectedInput f ["in]".data, "out]".data]) :=
  ⟨c9_brace_error_unreachable.1 "\x7b".data (.Paren '\x7b') (by decide) '\x7b' rfl,
   c9_brace_error_unreachable.2 "@param[q] x".data _ rfl⟩

/-- C10: outside a verbatim code region, a Marker token whose next token is a
Whitespace, NewLine, or another Marker token, or which is the last token of
the input, produces no grammar item and is appended to no Text item: the
parser state is left unchanged and no skip is requested, so its literal text
is silently absent from the output while surrounding tokens are processed as
usual. -/
theorem c10_dangling_marker :
    (∀ (w : List Char) (rest : List LexItem) (acc : List GrammarItem),
        in_code acc = false →
        (rest.head? = none ∨ (∃ u, rest.head? = some (.At u)) ∨
          (∃ u, rest.head? = some (.Whitespace u)) ∨ rest.head? = some .NewLine) →
        parse_step (.At w) rest acc = .ok (0, acc)) ∧
      parse "a @ b".data = .ok [.Text "a  b".data] ∧
      parse "@".data = .ok [] := by
  refine ⟨?_, rfl, rfl⟩
  intro w rest acc hcode hnext
  rcases hnext with h | ⟨u, h⟩ | ⟨u, h⟩ | h <;>
    simp [parse_step, ends_code_tok, h, hcode]

theorem c10_dangling_marker_witness :
    in_code [] = false ∧ parse_step (.At ['@']) [] [] = .ok (0, []) :=
  ⟨rfl, c10_dangling_marker.1 ['@'] [] [] rfl (Or.inl rfl)⟩

/-- C5 counterexample: in "@param\nx" the next Word token after the keyword is
"x", separated from the keyword only by a newline, yet the emitted Notation
captures no argument (params is empty, and "x" becomes ordinary text). -/
theorem c5_counterexample :
    parse "@param\nx".data = .ok [.nota [] [] "param".data, .Text "x".data] ∧
      ([] : List (List Char)) ≠ ["x".data] := by
  exact ⟨rfl, by decide⟩

/-- C5 (amended): the whitespace strategy skips only Whitespace (space/tab
run) tokens after the keyword; the argument is captured exactly when the
first non-whitespace token is a Word, which then need not be the token
immediately after the keyword; any other first non-whitespace token (a
NewLine, marker or delimiter) blocks capture, as in "@see\nx". -/
theorem c5_ws_strategy (s : List LexItem) :
    (∀ (w : List Char) (rest : List LexItem) (i : Nat),
        (∀ t ∈ s, ∃ u, t = .Whitespace u) →
        find_param (s ++ .Word w :: rest) i = some (i + s.length, w)) ∧
      (∀ (t : LexItem) (rest : List LexItem) (i : Nat),
        (∀ x ∈ s, ∃ u, x = .Whitespace u) →
        (t = .NewLine ∨ (∃ u, t = .At u) ∨ (∃ c, t = .Paren c)) →
        find_param (s ++ t :: rest) i = none) ∧
      parse "@see\nx".data = .ok [.nota [] [] "see".data, .Text "x".data] := by
  refine ⟨?_, ?_, rfl⟩
  · induction s with
    | nil => intro w rest i _; simp [find_param]
    | cons t s' ih =>
      intro w rest i hws
      obtain ⟨u, rfl⟩ := hws t (by simp)
      have := ih w rest (i + 1) (fun x hx => hws x (List.mem_cons_of_mem _ hx))
      simp only [List.cons_append, find_param, List.length_cons]
      have harith : i + 1 + s'.length = i + (s'.length + 1) := by omega
      show find_param (s' ++ LexItem.Word w :: rest) (i + 1) = _
      rw [this, harith]
  · induction s with
    | nil =>
      intro t rest i _ ht
      rcases ht with rfl | ⟨u, rfl⟩ | ⟨c, rfl⟩ <;> rfl
    | cons x s' ih =>
      intro t rest i hws ht
      obtain ⟨u, rfl⟩ := hws x (by simp)
      simp only [List.cons_append, find_param]
      exact ih t rest (i + 1) (fun y hy => hws y (List.mem_cons_of_mem _ hy)) ht

theorem c5_ws_strategy_witness :
    (∀ t ∈ [LexItem.Whitespace [' ']], ∃ u, t = .Whitespace u) ∧
      find_param ([LexItem.Whitespace [' ']] ++ .Word "x".data :: []) 2 =
        some (2 + 1, "x".data) :=
  ⟨by intro t ht; simp at ht; exact ⟨[' '], ht⟩,
   (c5_ws_strategy [LexItem.Whitespace [' ']]).1 "x".data [] 2
     (by intro t ht; simp at ht; exact ⟨[' '], ht⟩)⟩

/-- C7 counterexample: the word "parameter" is not "param" and carries no
bracketed direction annotation, yet the emitted Notation's tag is "param"
(the keyword test is a prefix test), refuting that every other word yields a
tag equal to the word itself. -/
theorem c7_counterexample :
    parse "@parameter x".data = .ok [.nota [] ["x".data] "param".data] ∧
      "param".data ≠ "parameter".data := by
  exact ⟨rfl, by decide⟩

/-- C7 (amended): when a marker is followed by a Word and the notation is
accepted, the tag is "param" exactly when the word merely starts with the
characters "param" (with any bracket suffix further constrained to the four
direction bodies to avoid the error); for a word not starting with "param"
the tag is the word itself. -/
theorem c7_tag_param_iff (v : List Char) :
    (∀ (meta : List (List Char)) (tag : List Char) (strat : ParamParser),
        word_nota v = .ok (meta, tag, strat) →
        (tag = "param".data ↔ "param".data.isPrefixOf v = true)) ∧
      ("param".data.isPrefixOf v = false →
        ∀ (meta : List (List Char)) (tag : List Char) (strat : ParamParser),
          word_nota v = .ok (meta, tag, strat) → tag = v) := by
  cases hp : "param".data.isPrefixOf v with
  | true =>
    constructor
    · intro meta tag strat h
      unfold word_nota at h
      rw [hp] at h
      simp only [if_true] at h
      split at h
      · exact Except.noConfusion h
      · injection h with h
        simp only [Prod.mk.injEq] at h
        obtain ⟨-, h2, -⟩ := h
        exact ⟨fun _ => rfl, fun _ => h2.symm⟩
    · intro hfalse
      exact absurd hfalse (by simp)
  | false =>
    constructor
    · intro meta tag strat h
      unfold word_nota at h
      rw [hp] at h
      simp only [Bool.false_eq_true, if_false] at h
      injection h with h
      simp only [Prod.mk.injEq] at h
      obtain ⟨-, h2, -⟩ := h
      subst h2
      constructor
      · intro htag
        rw [htag] at hp
        exact absurd hp (by decide)
      · intro hpt
        exact absurd hpt (by simp)
    · intro _ meta tag strat h
      unfold word_nota at h
      rw [hp] at h
      simp only [Bool.false_eq_true, if_false] at h
      injection h with h
      simp only [Prod.mk.injEq] at h
      exact h.2.1.symm

theorem c7_tag_param_iff_witness :
    word_nota "parameter".data = .ok ([], "param".data, .Whitespace) ∧
      ("param".data = "param".data ↔ "param".data.isPrefixOf "parameter".data = true) :=
  ⟨rfl, (c7_tag_param_iff "parameter".data).1 [] "param".data .Whitespace rfl⟩

/-- C8: for a Notation with tag "code", an argument is captured if and only
if the Rust rest slice is exactly marker, keyword word, open delimiter, a
Word, close delimiter with no intervening whitespace; in that case the inner
Word is the single params entry and four tokens are skipped so none of them
reappears as text; under any other token shape no argument is captured and
params is empty. -/
theorem c8_paren_strategy :
    (∀ (a b : LexItem) (w : List Char) (rest : List LexItem),
        paren_param (a :: b :: .Paren '\x7b' :: .Word w :: .Paren '\x7d' :: rest) =
          some (4, w)) ∧
      (∀ (ts : List LexItem) (k : Nat) (w : List Char),
        paren_param ts = some (k, w) →
        k = 4 ∧ ∃ a b rest,
          ts = a :: b :: .Paren '\x7b' :: .Word w :: .Paren '\x7d' :: rest) ∧
      parse "@code\x7b.py\x7d\nZ\n@endcode".data =
        .ok [.nota [] [".py".data] "code".data, .Text "\nZ\n".data,
          .nota [] [] "endcode".data, .Text []] ∧
      parse "@code \x7ba\x7d\n@endcode".data =
        .ok [.nota [] [] "code".data, .Text " \x7ba\x7d\n".data,
          .nota [] [] "endcode".data, .Text []] := by
  refine ⟨fun a b w rest => rfl, ?_, rfl, rfl⟩
  intro ts k w h
  unfold paren_param at h
  split at h
  · rename_i a b c1 w' c2 rest
    split_ifs at h with hc
    obtain ⟨hc1, hc2⟩ := hc
    simp only [Option.some.injEq, Prod.mk.injEq] at h
    obtain ⟨hk, hw⟩ := h
    subst hc1
    subst hc2
    subst hw
    exact ⟨hk.symm, a, b, rest, rfl⟩
  · exact Option.noConfusion h

theorem c8_paren_strategy_witness :
    paren_param [.At ['@'], .Word "code".data, .Paren '\x7b', .Word "w".data,
        .Paren '\x7d'] = some (4, "w".data) ∧
      (4 = 4 ∧ ∃ a b rest,
        [LexItem.At ['@'], .Word "code".data, .Paren '\x7b', .Word "w".data,
          .Paren '\x7d'] =
          a :: b :: .Paren '\x7b' :: .Word "w".data :: .Paren '\x7d' :: rest) :=
  ⟨rfl, c8_paren_strategy.2.1 _ 4 "w".data rfl⟩

/-! ## Whitespace runs in the lexer -/

theorem lexStep_ws_push (acc : List LexItem) (c : Char)
    (hc : c = ' ' ∨ c = '\t') (hhead : noWsHead acc) :
    lexStep acc c = .Whitespace [c] :: acc := by
  rcases hc with rfl | rfl <;>
  · cases acc with
    | nil => rfl
    | cons t r =>
      cases t with
      | At u => rfl
      | Paren u => rfl
      | Word u => rfl
      | Whitespace u => exact hhead.elim
      | NewLine => rfl

theorem ws_run_merge : ∀ s : List Char, (∀ c ∈ s, c = ' ' ∨ c = '\t') →
    ∀ (w : List Char) (acc : List LexItem),
      List.foldl lexStep (.Whitespace w :: acc) s = .Whitespace (w ++ s) :: acc := by
  intro s
  induction s with
  | nil => intro _ w acc; simp
  | cons c s' ih =>
    intro hws w acc
    have hc := hws c (by simp)
    have hmerge : lexStep (.Whitespace w :: acc) c = .Whitespace (w ++ [c]) :: acc := by
      rcases hc with rfl | rfl <;> rfl
    simp only [List.foldl_cons, hmerge]
    rw [ih (fun x hx => hws x (by simp [hx])) (w ++ [c]) acc]
    simp [List.append_assoc]

theorem ws_run_push (s : List Char) (acc : List LexItem) (hne : s ≠ [])
    (hws : ∀ c ∈ s, c = ' ' ∨ c = '\t') (hhead : noWsHead acc) :
    List.foldl lexStep acc s = .Whitespace s :: acc := by
  cases s with
  | nil => exact absurd rfl hne
  | cons c s' =>
    have hc := hws c (by simp)
    simp only [List.foldl_cons, lexStep_ws_push acc c hc hhead]
    rw [ws_run_merge s' (fun x hx => hws x (by simp [hx])) [c] acc]
    rfl

/-- C4: parsing "@param[in] x text" yields exactly the Notation with
meta ["in"], params ["x"], tag "param", followed by Text " text" whose first
character is a single space; and the same two-item sequence results for any
nonempty runs of spaces and tabs separating the bracketed keyword, the
argument name, and the description (whitespace runs of any length collapse
identically). -/
theorem c4_param_direction (s1 s2 : List Char) (h1 : s1 ≠ []) (h2 : s2 ≠ [])
    (hw1 : ∀ c ∈ s1, c = ' ' ∨ c = '\t') (hw2 : ∀ c ∈ s2, c = ' ' ∨ c = '\t') :
    parse ("@param[in]".data ++ s1 ++ "x".data ++ s2 ++ "text".data) =
      .ok [.nota ["in".data] [['x']] "param".data, .Text " text".data] := by
  have hlex : lex ("@param[in]".data ++ s1 ++ "x".data ++ s2 ++ "text".data) =
      [.At ['@'], .Word "param[in]".data, .Whitespace s1, .Word ['x'],
        .Whitespace s2, .Word "text".data] := by
    unfold lex
    rw [List.foldl_append, List.foldl_append, List.foldl_append, List.foldl_append]
    have hA : List.foldl lexStep [] "@param[in]".data =
        [.Word "param[in]".data, .At ['@']] := rfl
    rw [hA]
    rw [ws_run_push s1 _ h1 hw1 (by trivial)]
    have hx : List.foldl lexStep
        (.Whitespace s1 :: [.Word "param[in]".data, .At ['@']]) "x".data =
        .Word ['x'] :: .Whitespace s1 :: [.Word "param[in]".data, .At ['@']] := rfl
    rw [hx]
    rw [ws_run_push s2 _ h2 hw2 (by trivial)]
    have ht : List.foldl lexStep
        (.Whitespace s2 :: .Word ['x'] :: .Whitespace s1 ::
          [.Word "param[in]".data, .At ['@']]) "text".data =
        .Word "text".data :: .Whitespace s2 :: .Word ['x'] :: .Whitespace s1 ::
          [.Word "param[in]".data, .At ['@']] := rfl
    rw [ht]
    rfl
  show parse_items_go (lex _) 0 [] = _
  rw [hlex]
  rfl

theorem c4_param_direction_witness :
    ([' '] ≠ ([] : List Char)) ∧
      parse ("@param[in]".data ++ [' '] ++ "x".data ++ ['\t'] ++ "text".data) =
        .ok [.nota ["in".data] [['x']] "param".data, .Text " text".data] :=
  ⟨by simp,
   c4_param_direction [' '] ['\t'] (by simp) (by simp)
     (by intro c hc; simp at hc; exact Or.inl hc)
     (by intro c hc; simp at hc; exact Or.inr hc)⟩

/-! ## Verbatim code regions -/

theorem go_cons_step (cur : LexItem) (rest : List LexItem) (acc : List GrammarItem) :
    parse_items_go (cur :: rest) 0 acc =
      match parse_step cur rest acc with
      | .error e => .error e
      | .ok (k, acc') => parse_items_go rest k acc' := rfl

theorem code_passthrough : ∀ (ts more : List LexItem) (txt : List Char)
    (m p : List (List Char)) (acc : List GrammarItem),
    no_end ts more.head? = true →
    parse_items_go (ts ++ more) 0 (.Text txt :: .nota m p "code".data :: acc) =
      parse_items_go more 0
        (.Text (txt ++ lex_concat ts) :: .nota m p "code".data :: acc) := by
  intro ts
  induction ts with
  | nil => intro more txt m p acc _; simp [lex_concat]
  | cons t ts' ih =>
    intro more txt m p acc hno
    have hec : ends_code_tok t (ts' ++ more).head? = false := by
      cases ts' with
      | nil =>
        simp only [no_end] at hno
        simpa using hno
      | cons u r =>
        simp only [no_end, Bool.and_eq_true] at hno
        simpa using hno.1
    have hic : in_code (.Text txt :: .nota m p "code".data :: acc) = true := by
      simp [in_code]
    have hstep : parse_step t (ts' ++ more)
        (.Text txt :: .nota m p "code".data :: acc) =
        .ok (0, .Text (t.push_to txt) :: .nota m p "code".data :: acc) := by
      unfold parse_step
      rw [hec, hic]
      rfl
    rw [List.cons_append, go_cons_step, hstep]
    have hno' : no_end ts' more.head? = true := by
      cases ts' with
      | nil => rfl
      | cons u r =>
        simp only [no_end, Bool.and_eq_true] at hno
        exact hno.2
    show parse_items_go (ts' ++ more) 0 _ = _
    rw [ih more (t.push_to txt) m p acc hno']
    have htxt : t.push_to txt ++ lex_concat ts' = txt ++ lex_concat (t :: ts') := by
      rw [push_to_nil]
      have : lex_concat (t :: ts') = t.push_to [] ++ lex_concat ts' := by
        show List.foldl _ _ (t :: ts') = _
        rw [List.foldl_cons]
        exact lex_concat_from ts' (t.push_to [])
      rw [this, List.append_assoc]
    rw [htxt]

theorem ef_append_single : ∀ (l : List GrammarItem) (x : GrammarItem),
    endcode_followed l = true → is_endcode x = false →
    endcode_followed (l ++ [x]) = true := by
  intro l
  induction l with
  | nil =>
    intro x _ hx
    simp [endcode_followed, hx]
  | cons y l' ih =>
    intro x hl hx
    simp only [endcode_followed, Bool.and_eq_true] at hl
    obtain ⟨hy, hl'⟩ := hl
    simp only [List.cons_append, endcode_followed, Bool.and_eq_true]
    refine ⟨?_, ih x hl' hx⟩
    cases hie : is_endcode y with
    | false => simp
    | true =>
      rw [hie] at hy
      simp only [if_true] at hy
      cases l' with
      | nil => simp at hy
      | cons z l'' =>
        cases z with
        | Text t => simp
        | nota a b c => simp at hy
        | GroupStart => simp at hy
        | GroupEnd => simp at hy

theorem ef_append_endcode_text : ∀ (l : List GrammarItem)
    (m p : List (List Char)) (t : List Char),
    endcode_followed l = true →
    endcode_followed (l ++ [.nota m p "endcode".data, .Text t]) = true := by
  intro l
  induction l with
  | nil =>
    intro m p t _
    simp [endcode_followed, is_endcode]
  | cons y l' ih =>
    intro m p t hl
    simp only [endcode_followed, Bool.and_eq_true] at hl
    obtain ⟨hy, hl'⟩ := hl
    simp only [List.cons_append, endcode_followed, Bool.and_eq_true]
    refine ⟨?_, ih m p t hl'⟩
    cases hie : is_endcode y with
    | false => simp
    | true =>
      rw [hie] at hy
      simp only [if_true] at hy
      cases l' with
      | nil => simp at hy
      | cons z l'' =>
        cases z with
        | Text u => simp
        | nota a b c => simp at hy
        | GroupStart => simp at hy
        | GroupEnd => simp at hy

theorem ef_append_text_swap : ∀ (l : List GrammarItem) (t t' : List Char),
    endcode_followed (l ++ [.Text t]) = true →
    endcode_followed (l ++ [.Text t']) = true := by
  intro l
  induction l with
  | nil => intro t t' _; simp [endcode_followed, is_endcode]
  | cons y l' ih =>
    intro t t' hl
    simp only [List.cons_append, endcode_followed, Bool.and_eq_true] at hl ⊢
    obtain ⟨hy, hl'⟩ := hl
    refine ⟨?_, ih t t' hl'⟩
    cases hie : is_endcode y with
    | false => simp
    | true =>
      rw [hie] at hy
      simp only [if_true] at hy ⊢
      cases l' with
      | nil => simp
      | cons z l'' =>
        cases z with
        | Text u => simp
        | nota a b c => simp at hy
        | GroupStart => simp at hy
        | GroupEnd => simp at hy

theorem parse_step_ef (cur : LexItem) (rest : List LexItem)
    (acc : List GrammarItem) (k : Nat) (acc' : List GrammarItem)
    (h : parse_step cur rest acc = .ok (k, acc'))
    (hef : endcode_followed acc.reverse = true) :
    endcode_followed acc'.reverse = true := by
  unfold parse_step at h
  split at h
  · injection h with h
    rw [Prod.mk.injEq] at h
    obtain ⟨-, rfl⟩ := h
    cases acc with
    | nil => simp [code_append, endcode_followed, is_endcode]
    | cons y r =>
      cases y with
      | Text t =>
        simp only [code_append, List.reverse_cons] at hef ⊢
        exact ef_append_text_swap _ _ _ hef
      | nota a b c =>
        simp only [code_append, List.reverse_cons] at hef ⊢
        exact ef_append_single _ _ hef rfl
      | GroupStart =>
        simp only [code_append, List.reverse_cons] at hef ⊢
        exact ef_append_single _ _ hef rfl
      | GroupEnd =>
        simp only [code_append, List.reverse_cons] at hef ⊢
        exact ef_append_single _ _ hef rfl
  · split at h
    · -- cur is a marker
      split at h
      · -- next is a delimiter
        split_ifs at h
        · injection h with h
          rw [Prod.mk.injEq] at h
          obtain ⟨-, rfl⟩ := h
          rw [List.reverse_cons]
          exact ef_append_single _ _ hef rfl
        · injection h with h
          rw [Prod.mk.injEq] at h
          obtain ⟨-, rfl⟩ := h
          rw [List.reverse_cons]
          exact ef_append_single _ _ hef rfl
      · -- next is a word
        split at h
        · exact Except.noConfusion h
        · injection h with h
          rw [Prod.mk.injEq] at h
          obtain ⟨-, h2⟩ := h
          split at h2
          · rename_i htag
            subst h2
            subst htag
            simp only [List.reverse_cons, List.append_assoc, List.singleton_append]
            exact ef_append_endcode_text _ _ _ _ hef
          · rename_i htag
            subst h2
            rw [List.reverse_cons]
            refine ef_append_single _ _ hef ?_
            simp [is_endcode, htag]
      · -- next is anything else
        injection h with h
        rw [Prod.mk.injEq] at h
        obtain ⟨-, rfl⟩ := h
        exact hef
    · -- cur is a word
      split at h
      · rename_i t r
        injection h with h
        rw [Prod.mk.injEq] at h
        obtain ⟨-, rfl⟩ := h
        simp only [List.reverse_cons] at hef ⊢
        exact ef_append_text_swap _ _ _ hef
      · injection h with h
        rw [Prod.mk.injEq] at h
        obtain ⟨-, rfl⟩ := h
        rw [List.reverse_cons]
        exact ef_append_single _ _ hef rfl
    · -- cur is whitespace
      split at h
      · rename_i t r
        injection h with h
        rw [Prod.mk.injEq] at h
        obtain ⟨-, rfl⟩ := h
        simp only [List.reverse_cons] at hef ⊢
        exact ef_append_text_swap _ _ _ hef
      · split_ifs at h
        · injection h with h
          rw [Prod.mk.injEq] at h
          obtain ⟨-, rfl⟩ := h
          rw [List.reverse_cons]
          exact ef_append_single _ _ hef rfl
        · injection h with h
          rw [Prod.mk.injEq] at h
          obtain ⟨-, rfl⟩ := h
          rw [List.reverse_cons]
          exact ef_append_single _ _ hef rfl
      · injection h with h
        rw [Prod.mk.injEq] at h
        obtain ⟨-, rfl⟩ := h
        rw [List.reverse_cons]
        exact ef_append_single _ _ hef rfl
      · injection h with h
        rw [Prod.mk.injEq] at h
        obtain ⟨-, rfl⟩ := h
        rw [List.reverse_cons]
        exact ef_append_single _ _ hef rfl
    · -- cur is a newline
      split at h
      · rename_i t r
        injection h with h
        rw [Prod.mk.injEq] at h
        obtain ⟨-, rfl⟩ := h
        simp only [List.reverse_cons] at hef ⊢
        exact ef_append_text_swap _ _ _ hef
      · injection h with h
        rw [Prod.mk.injEq] at h
        obtain ⟨-, rfl⟩ := h
        exact hef
    · -- cur is a delimiter
      split at h
      · rename_i t r
        injection h with h
        rw [Prod.mk.injEq] at h
        obtain ⟨-, rfl⟩ := h
        simp only [List.reverse_cons] at hef ⊢
        exact ef_append_text_swap _ _ _ hef
      · injection h with h
        rw [Prod.mk.injEq] at h
        obtain ⟨-, rfl⟩ := h
        exact hef

theorem parse_items_go_ef (ts : List LexItem) :
    ∀ (skip : Nat) (acc : List GrammarItem) (r : List GrammarItem),
      endcode_followed acc.reverse = true →
      parse_items_go ts skip acc = .ok r →
      endcode_followed r = true := by
  induction ts with
  | nil =>
    intro skip acc r hef h
    simp only [parse_items_go] at h
    injection h with h
    subst h
    exact hef
  | cons cur rest ih =>
    intro skip acc r hef h
    rw [parse_items_go] at h
    split at h
    · exact ih _ _ _ hef h
    · split at h
      · exact Except.noConfusion h
      · rename_i p heq
        exact ih _ _ _ (parse_step_ef _ _ _ _ _ heq hef) h

/-- C2: the input "@code\nraw \x7b text \x7d\n@endcode" yields exactly
Text("\nraw \x7b text \x7d\n") between the code Notation and the endcode
Notation, delimiters and whitespace runs included; in general, inside an open
code region every token run containing no end-of-code marker is appended
byte-for-byte (via its literal text) onto the single Text item following the
code Notation; and in every successful parse each endcode Notation is
immediately followed by a Text item, which is empty when the region
contributed no text (as in "@code@endcode"). -/
theorem c2_verbatim_region :
    parse "@code\nraw \x7b text \x7d\n@endcode".data =
      .ok [.nota [] [] "code".data, .Text "\nraw \x7b text \x7d\n".data,
        .nota [] [] "endcode".data, .Text []] ∧
      (∀ (ts more : List LexItem) (txt : List Char) (m p : List (List Char))
          (acc : List GrammarItem),
          no_end ts more.head? = true →
          parse_items_go (ts ++ more) 0
              (.Text txt :: .nota m p "code".data :: acc) =
            parse_items_go more 0
              (.Text (txt ++ lex_concat ts) :: .nota m p "code".data :: acc)) ∧
      (∀ (input : List Char) (r : List GrammarItem), parse input = .ok r →
          endcode_followed r = true) ∧
      parse "@code@endcode".data =
        .ok [.nota [] [] "code".data, .nota [] [] "endcode".data, .Text []] := by
  refine ⟨rfl, code_passthrough, ?_, rfl⟩
  intro input r h
  exact parse_items_go_ef (lex input) 0 [] r rfl h

theorem c2_verbatim_region_witness :
    (no_end [LexItem.Paren '\x7b'] none = true ∧
      parse_items_go ([LexItem.Paren '\x7b'] ++ []) 0
          [.Text [], .nota [] [] "code".data] =
        parse_items_go [] 0
          [.Text ([] ++ lex_concat [LexItem.Paren '\x7b']), .nota [] [] "code".data]) ∧
      (parse ['x'] = .ok [.Text ['x']] ∧
        endcode_followed [GrammarItem.Text ['x']] = true) :=
  ⟨⟨rfl, c2_verbatim_region.2.1 [.Paren '\x7b'] [] [] [] [] [] rfl⟩,
   ⟨rfl, c2_verbatim_region.2.2.1 ['x'] [.Text ['x']] rfl⟩⟩
